import Mathlib

/-!
# Barnacle reconciliation engine — verification development

Shallow embedding of the reconciliation core of `cmd/barnacle/main.go`:
the change-set resolver (`getAffectedStacks`), the inventory scanner
(`getCurrentStacks` / `hasComposeFile`), the deployment executor
(`deployStacks` / `cleanupDeletedStacks`) and the planner (`deployChanges`).

Inventories (Go `map[string]bool` used as sets) are modelled as
`Finset String`.  Filesystem queries are modelled as boolean oracles.
The executor's `map[string]error` results map is modelled as the ordered
list of writes performed on it; a lookup takes the last write for a key,
exactly the Go map's overwrite semantics.  A per-unit action result is
`Option String`: `none` for success, `some msg` for a failed action
(Go `error` nil / non-nil).
-/

namespace Barnacle

/-- Go's `strings.Split(file, "/")`: cut the string at every `/`; `n`
separators yield `n + 1` pieces, and the empty string yields `[""]`. -/
def splitSlash (file : String) : List String :=
  (file.data.splitOn '/').map String.mk

/-- One changed path's candidate unit, mirroring the per-file body of the
loop in `getAffectedStacks` (main.go:489-507): split on `/`; a first
segment `..` discards the path; a first segment `.` shifts the candidate
to the second segment (discarding the path when there is none); the
candidate is attributed only when it is in the current inventory. -/
def pathCandidate (currentStacks : Finset String) (file : String) : Option String :=
  match splitSlash file with
  | [] => none
  | stackName :: rest =>
    if stackName = ".." then none
    else if stackName = "." then
      match rest with
      | [] => none
      | next :: _ => if next ∈ currentStacks then some next else none
    else if stackName ∈ currentStacks then some stackName else none

/-- One fold step of the resolver: add the path's candidate, if any. -/
def resolveStep (currentStacks : Finset String) (acc : Finset String) (file : String) :
    Finset String :=
  match pathCandidate currentStacks file with
  | some n => insert n acc
  | none => acc

/-- The affected-set accumulation over all changed paths
(first loop of `getAffectedStacks`, main.go:489-508). -/
def resolveAffected (changedFiles : List String) (currentStacks : Finset String) :
    Finset String :=
  changedFiles.foldl (resolveStep currentStacks) ∅

/-- `getAffectedStacks` (main.go:487-527): changed paths are resolved to
units, every current unit absent from the persisted inventory is added
to the affected set, and the deleted set is the persisted units absent
from the current inventory. -/
def getAffectedStacks (changedFiles : List String)
    (currentStacks deployedStacks : Finset String) :
    Finset String × Finset String :=
  let affected := resolveAffected changedFiles currentStacks ∪
    currentStacks.filter (fun s => s ∉ deployedStacks)
  let deleted := deployedStacks.filter (fun s => s ∉ currentStacks)
  (affected, deleted)

/-- A directory entry of the inventory root, as returned by `os.ReadDir`. -/
structure DirEntry where
  name : String
  isDir : Bool
deriving DecidableEq

/-- `hasComposeFile` (main.go:387-394): `exists` tells whether a file of
the given name exists directly inside the stack directory. -/
def hasComposeFile (exists' : String → Bool) : Bool :=
  ["docker-compose.yml", "docker-compose.yaml", "compose.yml", "compose.yaml"].any exists'

/-- One entry's step of `getCurrentStacks` (main.go:457-485): keep a
directory iff its name does not start with `.`, it has no `ignore` file,
and it has a compose manifest.  `fileExists dir name` is the filesystem
oracle for `os.Stat(filepath.Join(repoPath, dir, name))` succeeding. -/
def scanStep (fileExists : String → String → Bool) (acc : Finset String) (e : DirEntry) :
    Finset String :=
  if !e.isDir || e.name.front = '.' then acc
  else if fileExists e.name "ignore" then acc
  else if !hasComposeFile (fileExists e.name) then acc
  else insert e.name acc

/-- The scan over all root entries (main.go:464-481). -/
def getCurrentStacks (entries : List DirEntry) (fileExists : String → String → Bool) :
    Finset String :=
  entries.foldl (scanStep fileExists) ∅

/-- The ordered list of writes to the Go `results` map; the map's value
for a key is the last write to that key. -/
abbrev Results := List (String × Option String)

/-- Look a key up in the results map: the last write wins, mirroring Go
map assignment semantics.  `none` means no outcome was recorded. -/
def getResult (results : Results) (key : String) : Option (Option String) :=
  (results.reverse.find? (fun entry => entry.1 == key)).map (fun entry => entry.2)

/-- `deployStacks` (main.go:529-543): run the deploy action on every
affected stack; record each outcome — the error on failure, success
otherwise — under the stack name.  `upResult` is the oracle for
`dockerComposeUp`. -/
def deployStacks (affectedStacks : List String) (upResult : String → Option String)
    (results : Results) : Results :=
  affectedStacks.foldl (fun res stackName => res ++ [(stackName, upResult stackName)]) results

/-- `cleanupDeletedStacks` (main.go:545-558): run the teardown action on
every deleted stack; record each outcome under the key
`name ++ " (deleted)"`.  `downResult` is the oracle for
`dockerComposeDown`. -/
def cleanupDeletedStacks (deletedStacks : List String) (downResult : String → Option String)
    (results : Results) : Results :=
  deletedStacks.foldl
    (fun res stackName => res ++ [(stackName ++ " (deleted)", downResult stackName)]) results

/-- The executor phase of a targeted cycle, as `deployChanges`
(main.go:445-446) sequences it: deploy the affected stacks into a fresh
results map, then tear down the deleted stacks. -/
def runTargeted (toDeploy toRemove : List String)
    (upResult downResult : String → Option String) : Results :=
  cleanupDeletedStacks toRemove downResult (deployStacks toDeploy upResult [])

/-- The plan selection of `deployChanges` (main.go:433-443): a nil
changed-file list (`none`) falls through to `deployAllStacks`, which
deploys every current stack and removes every persisted stack absent
from disk (main.go:331-385); a non-nil list, empty included, builds the
targeted plan through `getAffectedStacks`. -/
def deployChangesPlan (changedFiles : Option (List String))
    (currentStacks deployedStacks : Finset String) : Finset String × Finset String :=
  match changedFiles with
  | none => (currentStacks, deployedStacks.filter (fun s => s ∉ currentStacks))
  | some files => getAffectedStacks files currentStacks deployedStacks

/-- A whole targeted cycle of `deployChanges` (main.go:433-455): plan,
execute, and unconditionally replace the persisted inventory with the
current one (main.go:448).  Go map iteration order is unspecified;
sorted order stands in for it, and the baseline update does not depend
on it. -/
def deployChangesRun (changedFiles : List String)
    (currentStacks deployedStacks : Finset String)
    (upResult downResult : String → Option String) :
    Results × Finset String :=
  let plan := getAffectedStacks changedFiles currentStacks deployedStacks
  let results := runTargeted (plan.1.sort (· ≤ ·)) (plan.2.sort (· ≤ ·)) upResult downResult
  (results, currentStacks)

/-! ## Resolver lemmas -/

theorem pathCandidate_mem {currentStacks : Finset String} {file x : String}
    (h : pathCandidate currentStacks file = some x) : x ∈ currentStacks := by
  unfold pathCandidate at h
  rcases hs : splitSlash file with _ | ⟨stackName, rest⟩ <;> rw [hs] at h
  · exact absurd h (by simp)
  · by_cases h2 : stackName = ".." <;> simp [h2] at h
    by_cases h1 : stackName = "." <;> simp [h1] at h
    · rcases rest with _ | ⟨next, rest⟩ <;> simp at h
      rcases h with ⟨hmem, hx⟩
      exact hx ▸ hmem
    · rcases h with ⟨hmem, hx⟩
      exact hx ▸ hmem

theorem pathCandidate_parent {currentStacks : Finset String} {file : String}
    (h : (splitSlash file).head? = some "..") :
    pathCandidate currentStacks file = none := by
  unfold pathCandidate
  rcases hs : splitSlash file with _ | ⟨stackName, rest⟩ <;> rw [hs] at h <;> simp at h
  simp [h]

theorem mem_resolveStep {currentStacks acc : Finset String} {file x : String} :
    x ∈ resolveStep currentStacks acc file ↔
      x ∈ acc ∨ pathCandidate currentStacks file = some x := by
  unfold resolveStep
  rcases h : pathCandidate currentStacks file with _ | n <;> simp [h]
  constructor
  · rintro (rfl | hx)
    · exact Or.inr rfl
    · exact Or.inl hx
  · rintro (hx | rfl)
    · exact Or.inr hx
    · exact Or.inl rfl

theorem mem_resolveFoldl (currentStacks : Finset String) (x : String) :
    ∀ (l : List String) (acc : Finset String),
      x ∈ l.foldl (resolveStep currentStacks) acc ↔
        x ∈ acc ∨ ∃ f ∈ l, pathCandidate currentStacks f = some x := by
  intro l
  induction l with
  | nil => intro acc; simp
  | cons f l ih =>
    intro acc
    rw [List.foldl_cons, ih, mem_resolveStep]
    simp only [List.mem_cons]
    constructor
    · rintro ((hx | hf) | ⟨g, hg, hgx⟩)
      · exact Or.inl hx
      · exact Or.inr ⟨f, Or.inl rfl, hf⟩
      · exact Or.inr ⟨g, Or.inr hg, hgx⟩
    · rintro (hx | ⟨g, rfl | hg, hgx⟩)
      · exact Or.inl (Or.inl hx)
      · exact Or.inl (Or.inr hgx)
      · exact Or.inr ⟨g, hg, hgx⟩

theorem mem_resolveAffected {changedFiles : List String} {currentStacks : Finset String}
    {x : String} :
    x ∈ resolveAffected changedFiles currentStacks ↔
      ∃ f ∈ changedFiles, pathCandidate currentStacks f = some x := by
  unfold resolveAffected
  rw [mem_resolveFoldl]
  simp

theorem mem_affected {changedFiles : List String}
    {currentStacks deployedStacks : Finset String} {x : String} :
    x ∈ (getAffectedStacks changedFiles currentStacks deployedStacks).1 ↔
      (∃ f ∈ changedFiles, pathCandidate currentStacks f = some x) ∨
        (x ∈ currentStacks ∧ x ∉ deployedStacks) := by
  unfold getAffectedStacks
  simp [mem_resolveAffected]

theorem deleted_eq (changedFiles : List String)
    (currentStacks deployedStacks : Finset String) :
    (getAffectedStacks changedFiles currentStacks deployedStacks).2 =
      deployedStacks \ currentStacks := by
  unfold getAffectedStacks
  simp [Finset.sdiff_eq_filter]

theorem pathCandidate_dot {currentStacks : Finset String} {file next : String}
    {rest : List String} (h : splitSlash file = "." :: next :: rest) :
    pathCandidate currentStacks file =
      if next ∈ currentStacks then some next else none := by
  unfold pathCandidate
  rw [h]
  simp

theorem pathCandidate_dot_alone {currentStacks : Finset String} {file : String}
    (h : splitSlash file = ["."]) : pathCandidate currentStacks file = none := by
  unfold pathCandidate
  rw [h]
  simp

theorem pathCandidate_plain {currentStacks : Finset String} {file s : String}
    {rest : List String} (h : splitSlash file = s :: rest)
    (h2 : s ≠ "..") (h1 : s ≠ ".") :
    pathCandidate currentStacks file = if s ∈ currentStacks then some s else none := by
  unfold pathCandidate
  rw [h]
  simp [h2, h1]

theorem mem_affected_middle {l1 l2 : List String} {file : String}
    {currentStacks deployedStacks : Finset String} {x : String} :
    x ∈ (getAffectedStacks (l1 ++ file :: l2) currentStacks deployedStacks).1 ↔
      x ∈ (getAffectedStacks (l1 ++ l2) currentStacks deployedStacks).1 ∨
        pathCandidate currentStacks file = some x := by
  rw [mem_affected, mem_affected]
  simp only [List.mem_append, List.mem_cons]
  constructor
  · rintro (⟨f, hf1 | rfl | hf2, hfx⟩ | hbase)
    · exact Or.inl (Or.inl ⟨f, Or.inl hf1, hfx⟩)
    · exact Or.inr hfx
    · exact Or.inl (Or.inl ⟨f, Or.inr hf2, hfx⟩)
    · exact Or.inl (Or.inr hbase)
  · rintro ((⟨f, hf1 | hf2, hfx⟩ | hbase) | hfile)
    · exact Or.inl ⟨f, Or.inl hf1, hfx⟩
    · exact Or.inl ⟨f, Or.inr (Or.inr hf2), hfx⟩
    · exact Or.inr hbase
    · exact Or.inl ⟨file, Or.inr (Or.inl rfl), hfile⟩

theorem getAffectedStacks_middle_none {l1 l2 : List String} {file : String}
    {currentStacks deployedStacks : Finset String}
    (h : pathCandidate currentStacks file = none) :
    getAffectedStacks (l1 ++ file :: l2) currentStacks deployedStacks =
      getAffectedStacks (l1 ++ l2) currentStacks deployedStacks := by
  rw [Prod.ext_iff]
  constructor
  · ext x
    rw [mem_affected_middle, h]
    simp
  · rw [deleted_eq, deleted_eq]

/-! ## Claim theorems: change-set resolver -/

/-- C1: a changed path whose first slash-separated segment is `..` is
never attributed to any unit — dropping it from the changed-path list,
wherever it stands, leaves both the affected set and the deleted set of
`getAffectedStacks` unchanged, for every current and persisted
inventory. -/
theorem parent_ref_path_contributes_nothing (l1 l2 : List String) (file : String)
    (currentStacks deployedStacks : Finset String)
    (h : (splitSlash file).head? = some "..") :
    getAffectedStacks (l1 ++ file :: l2) currentStacks deployedStacks =
      getAffectedStacks (l1 ++ l2) currentStacks deployedStacks :=
  getAffectedStacks_middle_none (pathCandidate_parent h)

theorem parent_ref_path_contributes_nothing_witness :
    (splitSlash "../stack1/docker-compose.yml").head? = some ".." ∧
      getAffectedStacks ["../stack1/docker-compose.yml"] {"stack1", "stack2"}
          {"stack1", "stack2"} =
        getAffectedStacks [] {"stack1", "stack2"} {"stack1", "stack2"} :=
  ⟨by decide,
    parent_ref_path_contributes_nothing [] [] "../stack1/docker-compose.yml"
      {"stack1", "stack2"} {"stack1", "stack2"} (by decide)⟩

/-- C4: every unit in the current inventory that is absent from the
persisted inventory is in the affected set, for every changed-path list
(the empty one included). -/
theorem new_unit_forces_deploy (changedFiles : List String)
    (currentStacks deployedStacks : Finset String) (s : String)
    (hc : s ∈ currentStacks) (hd : s ∉ deployedStacks) :
    s ∈ (getAffectedStacks changedFiles currentStacks deployedStacks).1 :=
  mem_affected.mpr (Or.inr ⟨hc, hd⟩)

theorem new_unit_forces_deploy_witness :
    "stack1" ∈ ({"stack1"} : Finset String) ∧
      "stack1" ∉ (∅ : Finset String) ∧
      "stack1" ∈ (getAffectedStacks [] {"stack1"} ∅).1 :=
  ⟨by decide, by decide,
    new_unit_forces_deploy [] {"stack1"} ∅ "stack1" (by decide) (by decide)⟩

/-- C5: for all inputs the plan returned by `getAffectedStacks`
satisfies: the affected set is contained in the current inventory, the
deleted set equals exactly the persisted units absent from the current
inventory, and the two sets are disjoint. -/
theorem plan_invariants (changedFiles : List String)
    (currentStacks deployedStacks : Finset String) :
    (getAffectedStacks changedFiles currentStacks deployedStacks).1 ⊆ currentStacks ∧
      (getAffectedStacks changedFiles currentStacks deployedStacks).2 =
        deployedStacks \ currentStacks ∧
      Disjoint (getAffectedStacks changedFiles currentStacks deployedStacks).1
        (getAffectedStacks changedFiles currentStacks deployedStacks).2 := by
  have hsub : (getAffectedStacks changedFiles currentStacks deployedStacks).1 ⊆
      currentStacks := by
    intro x hx
    rcases mem_affected.mp hx with ⟨f, _, hfx⟩ | ⟨hc, _⟩
    · exact pathCandidate_mem hfx
    · exact hc
  refine ⟨hsub, deleted_eq _ _ _, Finset.disjoint_left.mpr ?_⟩
  intro x hx hdel
  rw [deleted_eq, Finset.mem_sdiff] at hdel
  exact hdel.2 (hsub hx)

/-- C6: for a changed path whose first segment is `.`, the second
segment is the candidate: a unit is in the affected set of a list
containing the path iff it already was without it or it equals the second
segment and that segment is in the current inventory; a path whose only
segment is `.` contributes nothing to either set. -/
theorem dot_prefix_resolution (currentStacks deployedStacks : Finset String)
    (l1 l2 : List String) (file next : String) (rest : List String) :
    (splitSlash file = "." :: next :: rest →
      ∀ x, x ∈ (getAffectedStacks (l1 ++ file :: l2) currentStacks deployedStacks).1 ↔
        (x ∈ (getAffectedStacks (l1 ++ l2) currentStacks deployedStacks).1 ∨
          (x = next ∧ next ∈ currentStacks))) ∧
    (splitSlash file = ["."] →
      getAffectedStacks (l1 ++ file :: l2) currentStacks deployedStacks =
        getAffectedStacks (l1 ++ l2) currentStacks deployedStacks) := by
  constructor
  · intro h x
    rw [mem_affected_middle, pathCandidate_dot h]
    by_cases hmem : next ∈ currentStacks <;> simp [hmem, eq_comm]
  · intro h
    exact getAffectedStacks_middle_none (pathCandidate_dot_alone h)

theorem dot_prefix_resolution_witness :
    (splitSlash "./stack1/x" = "." :: "stack1" :: ["x"] ∧
      ("stack1" ∈ (getAffectedStacks ["./stack1/x"] {"stack1"} {"stack1"}).1 ↔
        ("stack1" ∈ (getAffectedStacks [] {"stack1"} {"stack1"}).1 ∨
          ("stack1" = "stack1" ∧ "stack1" ∈ ({"stack1"} : Finset String))))) ∧
    (splitSlash "." = ["."] ∧
      getAffectedStacks ["."] {"stack1"} {"stack1"} =
        getAffectedStacks [] {"stack1"} {"stack1"}) :=
  ⟨⟨by decide,
      (dot_prefix_resolution {"stack1"} {"stack1"} [] [] "./stack1/x" "stack1" ["x"]).1
        (by decide) "stack1"⟩,
    ⟨by decide,
      (dot_prefix_resolution {"stack1"} {"stack1"} [] [] "." "stack1" ["x"]).2
        (by decide)⟩⟩

/-- C10: the parent-reference discard looks only at the first segment: a
changed path whose first segment is neither `..` nor `.` and names a
current unit puts that unit in the affected set even when later segments
are `..`; and the path `./..` resolves to the candidate `..`, which is
attributed exactly when `..` is a current inventory name. -/
theorem parent_ref_only_first_segment (currentStacks deployedStacks : Finset String)
    (changedFiles : List String) (file s : String) (rest : List String) :
    (file ∈ changedFiles → splitSlash file = s :: rest → s ≠ ".." → s ≠ "." →
      s ∈ currentStacks →
      s ∈ (getAffectedStacks changedFiles currentStacks deployedStacks).1) ∧
    (pathCandidate currentStacks "./.." =
      if ".." ∈ currentStacks then some ".." else none) := by
  constructor
  · intro hmem hsplit h2 h1 hcur
    refine mem_affected.mpr (Or.inl ⟨file, hmem, ?_⟩)
    rw [pathCandidate_plain hsplit h2 h1]
    simp [hcur]
  · exact @pathCandidate_dot currentStacks "./.." ".." [] (by decide)

theorem parent_ref_only_first_segment_witness :
    ("stack1/../other/file" ∈ ["stack1/../other/file"] ∧
      splitSlash "stack1/../other/file" = "stack1" :: ["..", "other", "file"] ∧
      "stack1" ≠ ".." ∧ "stack1" ≠ "." ∧ "stack1" ∈ ({"stack1"} : Finset String)) ∧
    "stack1" ∈ (getAffectedStacks ["stack1/../other/file"] {"stack1"} {"stack1"}).1 :=
  ⟨⟨by decide, by decide, by decide, by decide, by decide⟩,
    (parent_ref_only_first_segment {"stack1"} {"stack1"} ["stack1/../other/file"]
        "stack1/../other/file" "stack1" ["..", "other", "file"]).1
      (by decide) (by decide) (by decide) (by decide) (by decide)⟩

/-! ## Executor lemmas -/

theorem string_append_cancel {a b c : String} (h : a ++ c = b ++ c) : a = b := by
  have hd := congrArg String.data h
  rw [String.data_append, String.data_append] at hd
  exact String.ext (List.append_cancel_right hd)

theorem deployStacks_eq (affectedStacks : List String) (upResult : String → Option String) :
    ∀ results : Results,
      deployStacks affectedStacks upResult results =
        results ++ affectedStacks.map (fun n => (n, upResult n)) := by
  induction affectedStacks with
  | nil => intro results; simp [deployStacks]
  | cons a l ih =>
    intro results
    show deployStacks l upResult (results ++ [(a, upResult a)]) = _
    rw [ih]
    simp [deployStacks]

theorem cleanupDeletedStacks_eq (deletedStacks : List String)
    (downResult : String → Option String) :
    ∀ results : Results,
      cleanupDeletedStacks deletedStacks downResult results =
        results ++ deletedStacks.map (fun n => (n ++ " (deleted)", downResult n)) := by
  induction deletedStacks with
  | nil => intro results; simp [cleanupDeletedStacks]
  | cons a l ih =>
    intro results
    show cleanupDeletedStacks l downResult (results ++ [(a ++ " (deleted)", downResult a)]) = _
    rw [ih]
    simp [cleanupDeletedStacks]

theorem runTargeted_eq (toDeploy toRemove : List String)
    (upResult downResult : String → Option String) :
    runTargeted toDeploy toRemove upResult downResult =
      toDeploy.map (fun n => (n, upResult n)) ++
        toRemove.map (fun n => (n ++ " (deleted)", downResult n)) := by
  unfold runTargeted
  rw [deployStacks_eq, cleanupDeletedStacks_eq]
  simp

theorem getResult_eq_of {results : Results} {key : String} {v : Option String}
    (hex : ∃ p ∈ results, p.1 = key)
    (hall : ∀ p ∈ results, p.1 = key → p.2 = v) :
    getResult results key = some v := by
  unfold getResult
  have hsome : (results.reverse.find? (fun entry => entry.1 == key)).isSome := by
    rw [List.find?_isSome]
    rcases hex with ⟨p, hp, hpk⟩
    exact ⟨p, List.mem_reverse.mpr hp, by simp [hpk]⟩
  rcases Option.isSome_iff_exists.mp hsome with ⟨e, he⟩
  have hek : e.1 = key := by
    have := List.find?_some he
    simpa using this
  have hmem : e ∈ results := List.mem_reverse.mp (List.mem_of_find?_eq_some he)
  rw [he]
  simp [hall e hmem hek]

theorem runTargeted_getResult_deploy {toDeploy toRemove : List String}
    {upResult downResult : String → Option String} {d : String}
    (hd : d ∈ toDeploy) (hnc : ∀ r ∈ toRemove, d ≠ r ++ " (deleted)") :
    getResult (runTargeted toDeploy toRemove upResult downResult) d =
      some (upResult d) := by
  rw [runTargeted_eq]
  refine getResult_eq_of ⟨(d, upResult d), ?_, rfl⟩ ?_
  · exact List.mem_append_left _ (List.mem_map.mpr ⟨d, hd, rfl⟩)
  · rintro p hp hpk
    rcases List.mem_append.mp hp with hp | hp
    · rcases List.mem_map.mp hp with ⟨n, _, rfl⟩
      simp only at hpk
      rw [hpk]
    · rcases List.mem_map.mp hp with ⟨r, hr, rfl⟩
      exact absurd hpk.symm (hnc r hr)

theorem runTargeted_getResult_remove {toDeploy toRemove : List String}
    {upResult downResult : String → Option String} {r : String}
    (hr : r ∈ toRemove) (hnc : ∀ d ∈ toDeploy, d ≠ r ++ " (deleted)") :
    getResult (runTargeted toDeploy toRemove upResult downResult) (r ++ " (deleted)") =
      some (downResult r) := by
  rw [runTargeted_eq]
  refine getResult_eq_of ⟨(r ++ " (deleted)", downResult r), ?_, rfl⟩ ?_
  · exact List.mem_append_right _ (List.mem_map.mpr ⟨r, hr, rfl⟩)
  · rintro p hp hpk
    rcases List.mem_append.mp hp with hp | hp
    · rcases List.mem_map.mp hp with ⟨n, hn, rfl⟩
      exact absurd hpk (hnc n hn)
    · rcases List.mem_map.mp hp with ⟨r', _, rfl⟩
      simp only at hpk ⊢
      rw [string_append_cancel hpk]

theorem affected_subset_current {changedFiles : List String}
    {currentStacks deployedStacks : Finset String} :
    (getAffectedStacks changedFiles currentStacks deployedStacks).1 ⊆ currentStacks := by
  intro x hx
  rcases mem_affected.mp hx with ⟨f, _, hfx⟩ | ⟨hc, _⟩
  · exact pathCandidate_mem hfx
  · exact hc

/-! ## Claim theorems: planner and executor -/

/-- C2 counterexample: with current = persisted = `{stack1}`, an empty
non-nil changed-path list produces an empty targeted deploy set — not
the full plan the claim demands — while a nil changed-path list deploys
`stack1` — not the "no changes" the claim demands. -/
theorem nil_empty_changeset_cex :
    (deployChangesPlan (some []) {"stack1"} {"stack1"}).1 = ∅ ∧
      (deployChangesPlan none {"stack1"} {"stack1"}).1 = {"stack1"} := by
  constructor
  · decide
  · decide

/-- C2 amended: the code maps a nil/absent ChangeSet to the full plan
(every current unit deploys, via `deployAllStacks`) and an empty non-nil
ChangeSet to a targeted plan whose deploy set is only the current units
absent from the persisted inventory. -/
theorem nil_vs_empty_changeset (currentStacks deployedStacks : Finset String) :
    (deployChangesPlan none currentStacks deployedStacks).1 = currentStacks ∧
      (deployChangesPlan (some []) currentStacks deployedStacks).1 =
        currentStacks \ deployedStacks := by
  refine ⟨rfl, ?_⟩
  show (getAffectedStacks [] currentStacks deployedStacks).1 = _
  ext x
  rw [mem_affected]
  simp [Finset.mem_sdiff]

/-- C3 counterexample: toDeploy = `{X (deleted)}` with a deploy action
that succeeds on every unit, toRemove = `{X}` with a teardown that fails
with "boom": the teardown outcome of unit `X` is recorded under the key
`X (deleted)` and overwrites the deploy success of the unit literally
named `X (deleted)`, whose outcome is thereby silently dropped. -/
theorem outcome_overwrite_cex :
    getResult (runTargeted ["X (deleted)"] ["X"] (fun _ => none) (fun _ => some "boom"))
        "X (deleted)" = some (some "boom") ∧
      getResult (runTargeted ["X (deleted)"] ["X"] (fun _ => none) (fun _ => some "boom"))
          "X (deleted)" ≠ some none := by
  constructor
  · decide
  · decide

/-- C3 amended: in a targeted cycle, provided no deploy unit's name
equals a removed unit's name suffixed with `" (deleted)"`, every unit in
toDeploy has its deploy outcome recorded under its name and every unit
in toRemove has its teardown outcome recorded under its suffixed name,
and no recording overwrites another unit's outcome.  (A full
`deployAllStacks` cycle records no per-unit outcomes at all.) -/
theorem executor_outcomes (toDeploy toRemove : List String)
    (upResult downResult : String → Option String)
    (hnc : ∀ d ∈ toDeploy, ∀ r ∈ toRemove, d ≠ r ++ " (deleted)") :
    (∀ d ∈ toDeploy,
        getResult (runTargeted toDeploy toRemove upResult downResult) d =
          some (upResult d)) ∧
      (∀ r ∈ toRemove,
        getResult (runTargeted toDeploy toRemove upResult downResult) (r ++ " (deleted)") =
          some (downResult r)) := by
  constructor
  · intro d hd
    exact runTargeted_getResult_deploy hd (fun r hr => hnc d hd r hr)
  · intro r hr
    exact runTargeted_getResult_remove hr (fun d hd => hnc d hd r hr)

theorem executor_outcomes_witness :
    "a" ≠ "b" ++ " (deleted)" ∧
      getResult (runTargeted ["a"] ["b"] (fun _ => none) (fun _ => some "x")) "a" =
        some none ∧
      getResult (runTargeted ["a"] ["b"] (fun _ => none) (fun _ => some "x")) "b (deleted)" =
        some (some "x") := by
  have h := executor_outcomes ["a"] ["b"] (fun _ => none) (fun _ => some "x") (by decide)
  exact ⟨by decide, h.1 "a" (by decide), h.2 "b" (by decide)⟩

/-- C7: batch isolation — with any mix of per-unit failures, every unit
in toDeploy and toRemove gets an outcome entry, and when unit `a`'s
deploy fails while unit `b`'s succeeds in the same cycle, `b`'s success
is still recorded as the final outcome under `b` (provided no removed
unit's suffixed key collides with `b`). -/
theorem executor_batch_isolation (toDeploy toRemove : List String)
    (upResult downResult : String → Option String) (a b e : String)
    (ha : a ∈ toDeploy) (hb : b ∈ toDeploy)
    (hfail : upResult a = some e) (hok : upResult b = none)
    (hnc : ∀ r ∈ toRemove, b ≠ r ++ " (deleted)") :
    getResult (runTargeted toDeploy toRemove upResult downResult) b = some none ∧
      (∀ d ∈ toDeploy,
        (d, upResult d) ∈ runTargeted toDeploy toRemove upResult downResult) ∧
      (∀ r ∈ toRemove,
        (r ++ " (deleted)", downResult r) ∈
          runTargeted toDeploy toRemove upResult downResult) := by
  refine ⟨?_, ?_, ?_⟩
  · rw [runTargeted_getResult_deploy hb hnc, hok]
  · intro d hd
    rw [runTargeted_eq]
    exact List.mem_append_left _ (List.mem_map.mpr ⟨d, hd, rfl⟩)
  · intro r hr
    rw [runTargeted_eq]
    exact List.mem_append_right _ (List.mem_map.mpr ⟨r, hr, rfl⟩)

theorem executor_batch_isolation_witness :
    ("a" ∈ ["a", "b"] ∧ "b" ∈ ["a", "b"] ∧
      (fun s => if s = "a" then some "boom" else none) "a" = some "boom" ∧
      (fun s => if s = "a" then some "boom" else none) "b" = none ∧
      "b" ≠ "c" ++ " (deleted)") ∧
    getResult
        (runTargeted ["a", "b"] ["c"] (fun s => if s = "a" then some "boom" else none)
          (fun _ => none)) "b" = some none :=
  ⟨⟨by decide, by decide, by decide, by decide, by decide⟩,
    (executor_batch_isolation ["a", "b"] ["c"]
        (fun s => if s = "a" then some "boom" else none) (fun _ => none) "a" "b" "boom"
        (by decide) (by decide) (by decide) (by decide) (by decide)).1⟩

/-- C8: after a targeted cycle the persisted inventory is replaced with
the current inventory for every combination of per-unit action results;
in particular an affected unit whose deploy action failed is still
recorded as deployed in the new baseline. -/
theorem baseline_advances_unconditionally (changedFiles : List String)
    (currentStacks deployedStacks : Finset String)
    (upResult downResult : String → Option String) :
    (deployChangesRun changedFiles currentStacks deployedStacks upResult downResult).2 =
        currentStacks ∧
      ∀ d ∈ (getAffectedStacks changedFiles currentStacks deployedStacks).1,
        upResult d ≠ none →
        d ∈ (deployChangesRun changedFiles currentStacks deployedStacks
              upResult downResult).2 := by
  refine ⟨rfl, ?_⟩
  intro d hd _
  exact affected_subset_current hd

theorem baseline_advances_unconditionally_witness :
    ("stack1" ∈ (getAffectedStacks ["stack1/a"] {"stack1"} {"stack1"}).1 ∧
      (fun _ : String => some "boom") "stack1" ≠ none) ∧
    "stack1" ∈ (deployChangesRun ["stack1/a"] {"stack1"} {"stack1"}
        (fun _ => some "boom") (fun _ => none)).2 :=
  ⟨⟨by decide, by decide⟩,
    (baseline_advances_unconditionally ["stack1/a"] {"stack1"} {"stack1"}
        (fun _ => some "boom") (fun _ => none)).2 "stack1" (by decide) (by decide)⟩

/-! ## Scanner lemmas -/

theorem mem_scanStep {fileExists : String → String → Bool} {acc : Finset String}
    {e : DirEntry} {x : String} :
    x ∈ scanStep fileExists acc e ↔
      x ∈ acc ∨
        (e.name = x ∧ e.isDir = true ∧ e.name.front ≠ '.' ∧
          fileExists e.name "ignore" = false ∧
          hasComposeFile (fileExists e.name) = true) := by
  unfold scanStep
  by_cases h1 : !e.isDir || e.name.front = '.'
  · rw [if_pos h1]
    simp only [Bool.or_eq_true, Bool.not_eq_true'] at h1
    constructor
    · exact Or.inl
    · rintro (hx | ⟨_, hdir, hfront, _, _⟩)
      · exact hx
      · rcases h1 with h1 | h1
        · exact absurd hdir (by simp [h1])
        · exact absurd (of_decide_eq_true h1) hfront
  · rw [if_neg h1]
    simp only [Bool.or_eq_true, Bool.not_eq_true', decide_eq_true_eq, not_or] at h1
    obtain ⟨hdir0, hfront⟩ := h1
    have hdir : e.isDir = true := by simpa using hdir0
    by_cases h2 : fileExists e.name "ignore"
    · simp only [if_pos h2]
      constructor
      · exact Or.inl
      · rintro (hx | ⟨_, _, _, hig, _⟩)
        · exact hx
        · exact absurd h2 (by simp [hig])
    · rw [if_neg h2]
      by_cases h3 : hasComposeFile (fileExists e.name)
      · rw [if_neg (by simp [h3]), Finset.mem_insert]
        constructor
        · rintro (rfl | hx)
          · exact Or.inr ⟨rfl, hdir, hfront, by simpa using h2, h3⟩
          · exact Or.inl hx
        · rintro (hx | ⟨hname, _, _, _, _⟩)
          · exact Or.inr hx
          · exact Or.inl hname.symm
      · rw [if_pos (by simp [h3])]
        constructor
        · exact Or.inl
        · rintro (hx | ⟨_, _, _, _, hcf⟩)
          · exact hx
          · exact absurd hcf h3

theorem mem_scanFoldl (fileExists : String → String → Bool) (x : String) :
    ∀ (entries : List DirEntry) (acc : Finset String),
      x ∈ entries.foldl (scanStep fileExists) acc ↔
        x ∈ acc ∨
          ∃ e ∈ entries,
            e.name = x ∧ e.isDir = true ∧ e.name.front ≠ '.' ∧
              fileExists e.name "ignore" = false ∧
              hasComposeFile (fileExists e.name) = true := by
  intro entries
  induction entries with
  | nil => intro acc; simp
  | cons e l ih =>
    intro acc
    rw [List.foldl_cons, ih, mem_scanStep]
    simp only [List.mem_cons]
    constructor
    · rintro ((hx | he) | ⟨g, hg, hgx⟩)
      · exact Or.inl hx
      · exact Or.inr ⟨e, Or.inl rfl, he⟩
      · exact Or.inr ⟨g, Or.inr hg, hgx⟩
    · rintro (hx | ⟨g, rfl | hg, hgx⟩)
      · exact Or.inl (Or.inl hx)
      · exact Or.inl (Or.inr hgx)
      · exact Or.inr ⟨g, hg, hgx⟩

/-! ## Claim theorem: scanner -/

/-- C9: a root entry's name is in the current inventory iff the entry is
a directory whose name does not start with `.`, no file named `ignore`
exists directly inside it, and at least one of the four manifest
filenames (checked in that fixed order, existence only) exists directly
inside it; entries failing any condition are simply not in the returned
set. -/
theorem scanner_inclusion (entries : List DirEntry)
    (fileExists : String → String → Bool) (s : String) :
    s ∈ getCurrentStacks entries fileExists ↔
      ∃ e ∈ entries,
        e.name = s ∧ e.isDir = true ∧ e.name.front ≠ '.' ∧
          fileExists s "ignore" = false ∧
          (∃ m ∈ ["docker-compose.yml", "docker-compose.yaml", "compose.yml",
              "compose.yaml"],
            fileExists s m = true) := by
  unfold getCurrentStacks
  rw [mem_scanFoldl]
  simp only [Finset.not_mem_empty, false_or]
  constructor
  · rintro ⟨e, he, rfl, hdir, hfront, hig, hcf⟩
    refine ⟨e, he, rfl, hdir, hfront, hig, ?_⟩
    rw [hasComposeFile, List.any_eq_true] at hcf
    exact hcf
  · rintro ⟨e, he, rfl, hdir, hfront, hig, hm⟩
    refine ⟨e, he, rfl, hdir, hfront, hig, ?_⟩
    rw [hasComposeFile, List.any_eq_true]
    exact hm

end Barnacle
